import Mathlib

/-!
Shallow embedding of the capability-analysis core of `cargo-capslock`:
the capability taxonomy (`capslock/src/caps.rs`), the report data model
(`capslock/src/report.rs`), the call-graph capability propagation
(`src/graph.rs`), the function map (`src/function.rs`), dynamic process
state (`src/dynamic/process.rs`, `src/runtime/fd.rs`), ioctl capability
resolution (`src/runtime/syscall/ioctl.rs`), seccomp syscall retrieval
(`capslock-seccomp/src/syscalls.rs`) and the `cm` line-oriented table
format (`cm/src/lib.rs`).  Rust `BTreeMap`/`IndexMap`/`HashMap` values
are modelled as association lists with the corresponding insert
semantics; machine integers are `Nat` (only equality and bit tests are
used on them).
-/

namespace Capslock

/-- The `Capability` enum of `capslock/src/caps.rs` (repr u32 codes 0..17). -/
inductive Capability where
  | Unspecified
  | Safe
  | Files
  | Network
  | Runtime
  | ReadSystemState
  | ModifySystemState
  | OperatingSystem
  | SystemCalls
  | ArbitraryExecution
  | Cgo
  | Unanalyzed
  | UnsafePointer
  | Reflect
  | Exec
  | DynamicLoading
  | Instrumentation
  | NativeCode
deriving DecidableEq, Repr

/-- The stable `repr(u32)` discriminant of a `Capability` (used by the
derived `Ord` on the Rust side, hence by `BTreeSet`/`BTreeMap` ordering). -/
def Capability.code : Capability → Nat
  | .Unspecified => 0
  | .Safe => 1
  | .Files => 2
  | .Network => 3
  | .Runtime => 4
  | .ReadSystemState => 5
  | .ModifySystemState => 6
  | .OperatingSystem => 7
  | .SystemCalls => 8
  | .ArbitraryExecution => 9
  | .Cgo => 10
  | .Unanalyzed => 11
  | .UnsafePointer => 12
  | .Reflect => 13
  | .Exec => 14
  | .DynamicLoading => 15
  | .Instrumentation => 16
  | .NativeCode => 17

/-- The strum serialization string of a `Capability`. -/
def Capability.toSerde : Capability → String
  | .Unspecified => "CAPABILITY_UNSPECIFIED"
  | .Safe => "CAPABILITY_SAFE"
  | .Files => "CAPABILITY_FILES"
  | .Network => "CAPABILITY_NETWORK"
  | .Runtime => "CAPABILITY_RUNTIME"
  | .ReadSystemState => "CAPABILITY_READ_SYSTEM_STATE"
  | .ModifySystemState => "CAPABILITY_MODIFY_SYSTEM_STATE"
  | .OperatingSystem => "CAPABILITY_OPERATING_SYSTEM"
  | .SystemCalls => "CAPABILITY_SYSTEM_CALLS"
  | .ArbitraryExecution => "CAPABILITY_ARBITRARY_EXECUTION"
  | .Cgo => "CAPABILITY_CGO"
  | .Unanalyzed => "CAPABILITY_UNANALYZED"
  | .UnsafePointer => "CAPABILITY_UNSAFE_POINTER"
  | .Reflect => "CAPABILITY_REFLECT"
  | .Exec => "CAPABILITY_EXEC"
  | .DynamicLoading => "CAPABILITY_DYNAMIC_LOADING"
  | .Instrumentation => "CAPABILITY_INSTRUMENTATION"
  | .NativeCode => "CAPABILITY_NATIVE_CODE"

/-- The `CapabilityType` enum of `capslock/src/caps.rs`. -/
inductive CapabilityType where
  | Unspecified
  | Direct
  | Transitive
deriving DecidableEq, Repr

/-- The hand-written `Ord for CapabilityType` impl in `capslock/src/caps.rs`
(`Direct` greatest, then `Transitive`, then `Unspecified`), transcribed
match arm by match arm. -/
def CapabilityType.cmp : CapabilityType → CapabilityType → Ordering
  | .Direct, .Direct => .eq
  | .Direct, _ => .gt
  | .Transitive, .Direct => .lt
  | .Transitive, .Transitive => .eq
  | .Transitive, _ => .gt
  | .Unspecified, .Unspecified => .eq
  | _, _ => .lt

/-- `a ≤ b` under the hand-written `Ord for CapabilityType`. -/
def CapabilityType.le (a b : CapabilityType) : Bool :=
  CapabilityType.cmp a b ≠ Ordering.gt

/-- Rust `std::cmp::max` over the hand-written `Ord for CapabilityType`:
returns the second argument unless it compares less than the first. -/
def CapabilityType.max (v1 v2 : CapabilityType) : CapabilityType :=
  if CapabilityType.cmp v2 v1 = Ordering.lt then v1 else v2

/-! ### Association lists standing in for `BTreeMap`

`BTreeMap` keys are unique; lookup is by key; `insert` replaces the value
of an existing key and otherwise adds the key.  Iteration order (sorted
on the Rust side) is only observed through `keys` collection in
`bubble_transitive_capabilities`, where it is sorted explicitly below. -/

/-- Key lookup in an association list (first matching entry). -/
def lookupA {α β : Type} [DecidableEq α] : List (α × β) → α → Option β
  | [], _ => none
  | (k, v) :: rest, key => if key = k then some v else lookupA rest key

/-- `BTreeMap::contains_key`. -/
def containsKey {α β : Type} [DecidableEq α] (l : List (α × β)) (key : α) : Bool :=
  (lookupA l key).isSome

/-- `BTreeMap::insert`: replace the value at an existing key, else add the
entry. -/
def insertA {α β : Type} [DecidableEq α] : List (α × β) → α → β → List (α × β)
  | [], key, v => [(key, v)]
  | (k, v') :: rest, key, v =>
      if key = k then (k, v) :: rest else (k, v') :: insertA rest key v

/-- Insertion sort of capabilities by their `repr(u32)` code, mirroring the
`BTreeSet<Capability>` collection order in `bubble_transitive_capabilities`. -/
def sortCapsInsert (c : Capability) : List Capability → List Capability
  | [] => [c]
  | c' :: rest =>
      if c.code ≤ c'.code then c :: c' :: rest else c' :: sortCapsInsert c rest

/-- Sort a list of capabilities by code (`BTreeSet` iteration order). -/
def sortCaps : List Capability → List Capability
  | [] => []
  | c :: rest => sortCapsInsert c (sortCaps rest)

/-! ### The report data model (`capslock/src/report.rs`) -/

/-- `RustFunctionName` from `capslock/src/report.rs`. -/
inductive RustFunctionName where
  | TraitMethod (trait_ : List Char) (type_ : List Char) (method : List Char)
  | StructMethod (type_ : List Char) (method : List Char)
  | Bare (function : List Char)
deriving DecidableEq, Repr

/-- `FunctionName` from `capslock/src/report.rs`. -/
inductive FunctionName where
  | Rust (display_name : List Char) (name : RustFunctionName)
  | Other (display_name : List Char) (language : List Char)
deriving DecidableEq, Repr

/-- `Location` from `capslock/src/report.rs`. -/
structure Location where
  directory : Option (List Char)
  filename : List Char
  line : Nat
  column : Option Nat
deriving DecidableEq, Repr

/-- `Function` from `capslock/src/report.rs`: name, optional location,
capability map (`BTreeMap<Capability, CapabilityType>` as an association
list) and syscall set (`BTreeSet<String>` as a list). -/
structure Function where
  name : FunctionName
  location : Option Location
  capabilities : List (Capability × CapabilityType)
  syscalls : List (List Char)
deriving DecidableEq, Repr

/-- `Function::insert_capability` from `capslock/src/report.rs`: vacant
entry stores `ty`; occupied entry stores `max(existing, ty)` under the
hand-written `CapabilityType` order. -/
def Function.insert_capability (f : Function) (capability : Capability)
    (ty : CapabilityType) : Function :=
  match lookupA f.capabilities capability with
  | none => { f with capabilities := insertA f.capabilities capability ty }
  | some existing =>
      { f with capabilities :=
          insertA f.capabilities capability (CapabilityType.max existing ty) }

/-! ### `CallGraph::bubble_transitive_capabilities` (`src/graph.rs`)

The Rust code loops `while changed`, and in each pass walks every edge
`(caller, callee)`, collects the callee's capability keys into a
`BTreeSet`, and inserts `(cap, Transitive)` into the caller for every key
the caller lacks, marking `changed`.  Edges are a list of index pairs;
the function table is the dense `Vec<Function>` of the `FunctionMap`.
The `while` loop is run on fuel `functions.length * 18 + 1`: each
changing pass adds at least one of at most `18 * functions.length`
capability entries, so the fuel always reaches the fixed point. -/

/-- Inner loop of one edge visit: insert each callee capability missing
from the caller as `Transitive`, marking `changed`. -/
def bubbleCaps (calleeCaps : List Capability) (caller : Function)
    (changed : Bool) : Function × Bool :=
  calleeCaps.foldl
    (fun st cap =>
      if containsKey st.1.capabilities cap then st
      else
        let caps := insertA st.1.capabilities cap CapabilityType.Transitive
        ({ st.1 with capabilities := caps }, true))
    (caller, changed)

/-- One pass of `bubble_transitive_capabilities` over all edges.  The Rust
code `unwrap`s the index lookups (panicking on an out-of-range index);
edges whose endpoints are out of range are skipped here, and the theorems
about this function assume all edge endpoints are in range. -/
def bubblePass (edges : List (Nat × Nat)) (fns : List Function)
    (changed : Bool) : List Function × Bool :=
  edges.foldl
    (fun st e =>
      match st.1[e.2]?, st.1[e.1]? with
      | some callee, some caller =>
          let calleeCaps := sortCaps (callee.capabilities.map Prod.fst)
          let r := bubbleCaps calleeCaps caller st.2
          (st.1.set e.1 r.1, r.2)
      | _, _ => st)
    (fns, changed)

/-- The `while changed` loop on fuel. -/
def bubbleLoop : Nat → List (Nat × Nat) → List Function → List Function
  | 0, _, fns => fns
  | fuel + 1, edges, fns =>
      let r := bubblePass edges fns false
      if r.2 then bubbleLoop fuel edges r.1 else r.1

/-- `CallGraph::bubble_transitive_capabilities` from `src/graph.rs`. -/
def bubble_transitive_capabilities (edges : List (Nat × Nat))
    (fns : List Function) : List Function :=
  bubbleLoop (fns.length * 18 + 1) edges fns

/-! ### String primitives

Strings are modelled as `List Char`; the primitives below mirror the
`str` methods used by the sources (`strip_prefix`, `split_once`,
`rsplit_once`, `ends_with`, `trim`, `trim_start`, `starts_with`,
`split_ascii_whitespace`). -/

/-- `str::starts_with` for a literal pattern. -/
def startsWith (pat : List Char) : List Char → Bool
  | s =>
    match pat, s with
    | [], _ => true
    | _ :: _, [] => false
    | p :: ps, c :: cs => p = c && startsWith ps cs

/-- `str::split_once(pat)`: split around the first occurrence of `pat`. -/
def splitOnce (pat : List Char) : List Char → Option (List Char × List Char)
  | [] => if startsWith pat [] then some ([], []) else none
  | c :: cs =>
      if startsWith pat (c :: cs) then some ([], (c :: cs).drop pat.length)
      else (splitOnce pat cs).map (fun r => (c :: r.1, r.2))

/-- `str::rsplit_once(pat)`: split around the last occurrence of `pat`. -/
def rsplitOnce (pat : List Char) (s : List Char) :
    Option (List Char × List Char) :=
  (splitOnce pat.reverse s.reverse).map (fun r => (r.2.reverse, r.1.reverse))

/-- `str::ends_with('>')`-style single-character suffix test. -/
def endsWithChar (c : Char) (s : List Char) : Bool :=
  match s.getLast? with
  | some c' => c' = c
  | none => false

/-- `str::strip_prefix('<')`-style single-character prefix removal. -/
def stripPrefixChar (c : Char) : List Char → Option (List Char)
  | [] => none
  | x :: xs => if x = c then some xs else none

/-! ### `parse_rust_function_name` (`src/function.rs`) -/

/-- The demangling error enum of `src/function.rs` (the variants reachable
from `parse_rust_function_name`). -/
inductive NameError where
  | MalformedMethod (s : List Char)
  | MalformedTraitMethod (s : List Char)
deriving DecidableEq, Repr

/-- `parse_rust_function_name` from `src/function.rs`, transcribed: strip a
leading `<`; with ` as ` present split there and then at the last `>::`
(else `MalformedTraitMethod`); without ` as ` split at the last `>::`
(else `MalformedMethod`); otherwise, when the name does not end in `>`
and splits at the last `::`, a struct method; else bare. -/
def parse_rust_function_name (function : List Char) :
    Except NameError RustFunctionName :=
  match stripPrefixChar '<' function with
  | some rest =>
    match splitOnce (" as ".toList) rest with
    | some (type_, rem) =>
      match rsplitOnce (">::".toList) rem with
      | some (trait_, method) =>
          .ok (.TraitMethod trait_ type_ method)
      | none => .error (.MalformedTraitMethod rest)
    | none =>
      match rsplitOnce (">::".toList) rest with
      | some (type_, method) => .ok (.StructMethod type_ method)
      | none => .error (.MalformedMethod rest)
  | none =>
    if !endsWithChar '>' function then
      match rsplitOnce ("::".toList) function with
      | some (type_, method) => .ok (.StructMethod type_ method)
      | none => .ok (.Bare function)
    else .ok (.Bare function)

/-- Written from the claim's words, for comparison with
`parse_rust_function_name`: a name beginning with `<` containing ` as `
parses as a trait method (type left of ` as `, trait left of `>::` in the
remainder, method right of it), failing `MalformedTraitMethod` when the
remainder lacks `>::`; a name beginning with `<` without ` as ` splits at
`>::` as a struct method, failing `MalformedMethod` when `>::` is absent;
a name not beginning with `<` that does not end in `>` and contains `::`
splits at the rightmost `::` into a struct method; every other name is
bare. -/
def claimedRustNameParse (function : List Char) :
    Except NameError RustFunctionName :=
  match stripPrefixChar '<' function with
  | some rest =>
    if (splitOnce (" as ".toList) function).isSome then
      match splitOnce (" as ".toList) rest with
      | some (type_, rem) =>
        match rsplitOnce (">::".toList) rem with
        | some (trait_, method) => .ok (.TraitMethod trait_ type_ method)
        | none => .error (.MalformedTraitMethod rest)
      | none => .error (.MalformedTraitMethod rest)
    else
      match rsplitOnce (">::".toList) rest with
      | some (type_, method) => .ok (.StructMethod type_ method)
      | none => .error (.MalformedMethod rest)
  | none =>
    if !endsWithChar '>' function ∧ (rsplitOnce ("::".toList) function).isSome then
      match rsplitOnce ("::".toList) function with
      | some (type_, method) => .ok (.StructMethod type_ method)
      | none => .ok (.Bare function)
    else .ok (.Bare function)

/-! ### `FunctionMap` (`src/function.rs`) -/

/-- `FunctionMap` from `src/function.rs`: the dense function array plus
the mangled-name → index map (`HashMap<String, usize>` as an association
list). -/
structure FunctionMap where
  functions : List Function
  ids : List (List Char × Nat)
deriving DecidableEq, Repr

/-- `FunctionMap::upsert` from `src/function.rs`: an already-known mangled
name returns its stored index untouched; an unseen name is appended at
index `functions.len()` and recorded in `ids`.  The returned pair is
(index, updated map). -/
def FunctionMap.upsert (self : FunctionMap) (mangled : List Char)
    (function : Function) : Nat × FunctionMap :=
  match lookupA self.ids mangled with
  | some idx => (idx, self)
  | none =>
      let idx := self.functions.length
      (idx, { functions := self.functions ++ [function],
              ids := self.ids ++ [(mangled, idx)] })

/-! ### `Process` serialization (`capslock/src/report.rs`)

`Process.capabilities` is a `BTreeSet<Capability>`, modelled as its
iteration list (sorted, duplicate-free on the Rust side; the model takes
the list as given).  The `Serialize` impl builds a `Raw` value whose
`capabilities` field filters `Capability::Safe` out of the set, and each
capability serializes as its strum string. -/

/-- The top-level `capabilities` JSON array produced by
`impl Serialize for Process` in `capslock/src/report.rs`: the process's
capability set with `Capability::Safe` removed, each element rendered as
its serde string. -/
def serializeProcessCapabilities (capabilities : List Capability) :
    List String :=
  (capabilities.filter (fun cap => !(cap = Capability.Safe))).map
    Capability.toSerde

/-! ### File descriptors (`src/runtime/fd.rs`) -/

/-- `nix::sys::socket::AddressFamily` (the variants the sources inspect;
`other` stands for the remaining discriminants of the nix enum). -/
inductive AddressFamily where
  | Unix
  | Inet
  | Inet6
  | Netlink
  | Packet
  | other (code : Nat)
deriving DecidableEq, Repr

/-- `nix::sys::socket::SockType` (the variants the sources inspect). -/
inductive SockType where
  | Stream
  | Datagram
  | Raw
  | Rdm
  | SeqPacket
deriving DecidableEq, Repr

/-- `fd::Type` from `src/runtime/fd.rs`. -/
inductive FdType where
  | Block (path : List Char)
  | Char (path : List Char)
  | Directory (path : List Char)
  | Fifo
  | File (path : List Char)
  | Socket (domain : AddressFamily) (ty : SockType)
  | SocketInode (inode : Nat)
  | Unknown
deriving DecidableEq, Repr

/-- The Linux `O_CLOEXEC` flag bit (octal `0o2000000`), the bit the
`OFlag` bitset test in `Meta::is_cloexec` inspects. -/
def O_CLOEXEC : Nat := 0o2000000

/-- `fd::Meta` from `src/runtime/fd.rs`: the `OFlag` bitset (as the raw
bits) and the descriptor type. -/
structure Meta where
  flags : Nat
  ty : FdType
deriving DecidableEq, Repr

/-- `Meta::is_cloexec`: `self.flags.contains(OFlag::O_CLOEXEC)`, i.e. the
bitflags containment test `flags & O_CLOEXEC == O_CLOEXEC`. -/
def Meta.is_cloexec (m : Meta) : Bool :=
  m.flags &&& O_CLOEXEC = O_CLOEXEC

/-! ### ioctl capability resolution (`src/runtime/syscall/ioctl.rs`) -/

/-- The `Error::Ioctl` variant of `src/runtime/error.rs` reachable from
`ioctl::caps`. -/
inductive RuntimeError where
  | Ioctl (cmd : Nat) (ty : FdType)
deriving DecidableEq, Repr

/-- `caps` from `src/runtime/syscall/ioctl.rs`, match arm by match arm:
`Char` descriptors are safe; `Directory` and `File` are files; `AF_UNIX`
sockets are files; other sockets and socket inodes are network; anything
else is the `Ioctl` error.  The resulting `BTreeSet<Capability>` is a
singleton in every arm, modelled as a one-element list. -/
def ioctlCaps (cmd : Nat) (ty : FdType) :
    Except RuntimeError (List Capability) :=
  match ty with
  | .Char _ => .ok [Capability.Safe]
  | .Directory _ => .ok [Capability.Files]
  | .File _ => .ok [Capability.Files]
  | .Socket domain _ =>
      if domain = AddressFamily.Unix then .ok [Capability.Files]
      else .ok [Capability.Network]
  | .SocketInode _ => .ok [Capability.Network]
  | _ => .error (.Ioctl cmd ty)

/-- Written from the claim's words, for comparison with `ioctlCaps`:
`{SAFE}` for `Char`; `{FILES}` for `Directory`, `File` and `AF_UNIX`
sockets; `{NETWORK}` for every other socket and for socket inodes; the
`Ioctl{cmd, ty}` error for `Block`, `Fifo` and `Unknown`. -/
def claimedIoctlCaps (cmd : Nat) (ty : FdType) :
    Except RuntimeError (List Capability) :=
  match ty with
  | .Char _ => .ok [Capability.Safe]
  | .Directory _ => .ok [Capability.Files]
  | .File _ => .ok [Capability.Files]
  | .Socket .Unix _ => .ok [Capability.Files]
  | .Socket _ _ => .ok [Capability.Network]
  | .SocketInode _ => .ok [Capability.Network]
  | .Block _ => .error (.Ioctl cmd ty)
  | .Fifo => .error (.Ioctl cmd ty)
  | .Unknown => .error (.Ioctl cmd ty)

/-! ### Dynamic process state (`src/dynamic/process.rs`) -/

/-- The `Exec` record pushed on `execve` (path, argv, envp). -/
structure ExecRecord where
  path : List Char
  argv : List (List Char)
  envp : List (List Char)
deriving DecidableEq, Repr

/-- Per-process `State` from `src/dynamic/process.rs`: exec history, FD
table (`BTreeMap<Fd, Meta>` as an association list), pid, start gate,
working directory, call graph, accumulated capabilities and function
map. -/
structure State where
  execs : List ExecRecord
  fds : List (Nat × Meta)
  pid : Nat
  waiting_for_start : Bool
  wd : List Char
  call_graph : List (Nat × Nat)
  caps : List Capability
  functions : FunctionMap
deriving DecidableEq, Repr

/-- The process `Map` from `src/dynamic/process.rs` (active and inactive
tables as association lists keyed by pid). -/
structure ProcessMap where
  active : List (Nat × State)
  inactive : List (Nat × State)
  include_before_start : Bool
  init_pid : Nat
deriving DecidableEq, Repr

/-- The `Error::ProcessFind` variant of `src/dynamic/error.rs` reachable
from `Map::spawn`. -/
inductive DynamicError where
  | ProcessFind (pid : Nat)
deriving DecidableEq, Repr

/-- `Map::spawn` from `src/dynamic/process.rs`: look up the parent in the
active table (else `ProcessFind`); insert a child state with empty exec
history, the parent's FD table restricted to non-`CLOEXEC` entries, the
child's pid, the start gate from `include_before_start`, the parent's
working directory, and fresh graph/caps/functions. -/
def ProcessMap.spawn (self : ProcessMap) (parent child : Nat) :
    Except DynamicError ProcessMap :=
  match lookupA self.active parent with
  | none => .error (.ProcessFind parent)
  | some p =>
      let childState : State :=
        { execs := []
          fds := p.fds.filter (fun e => !(e.2.is_cloexec))
          pid := child
          waiting_for_start := !self.include_before_start
          wd := p.wd
          call_graph := []
          caps := []
          functions := { functions := [], ids := [] } }
      .ok { self with active := insertA self.active child childState }

/-! ### Seccomp syscall retrieval (`capslock-seccomp/src/syscalls.rs`)

The `CapabilityMap` is `BTreeMap<String, HashSet<Capability>>`; the map
is modelled as an association list of `Finset Capability` (a `HashSet`
is exactly a finite set of capabilities), and `get_syscalls` collects the
required capabilities into such a set before filtering. -/

/-- `CapabilityMap::get_syscalls` from `capslock-seccomp/src/syscalls.rs`:
keep every table entry whose capability set is the singleton `{Safe}` or
a subset of the required set, yielding the syscall names in table order. -/
def get_syscalls (table : List (List Char × Finset Capability))
    (required : Finset Capability) : List (List Char) :=
  (table.filter (fun e =>
    (e.2.card = 1 && decide (Capability.Safe ∈ e.2)) ||
      decide (e.2 ⊆ required))).map Prod.fst

/-! ### The `cm` document format (`cm/src/lib.rs`)

`Document::from_reader` reads lines (modelled as a `List (List Char)` of
newline-stripped lines, so the `Read`/IO error paths cannot arise),
numbers them 1-based, skips comment and blank lines, splits the rest on
ASCII whitespace, requires at least two fields, parses key and values
with caller-supplied parsers, and inserts into an `IndexMap` (insertion
order preserved, duplicate keys overwrite in place). -/

/-- Rust `char::is_whitespace` (the Unicode `White_Space` property), used
by `str::trim` / `str::trim_start`. -/
def isRustWhitespace (c : Char) : Bool :=
  let n := c.toNat
  (0x09 ≤ n && n ≤ 0x0D) || n = 0x20 || n = 0x85 || n = 0xA0 || n = 0x1680 ||
    (0x2000 ≤ n && n ≤ 0x200A) || n = 0x2028 || n = 0x2029 || n = 0x202F ||
    n = 0x205F || n = 0x3000

/-- Rust `char::is_ascii_whitespace` (space, tab, newline, form feed,
carriage return), used by `str::split_ascii_whitespace`. -/
def isAsciiWs (c : Char) : Bool :=
  c = ' ' || c = '\t' || c = '\n' || c = Char.ofNat 0x0C || c = '\r'

/-- `str::trim_start`. -/
def trimStart (s : List Char) : List Char :=
  s.dropWhile isRustWhitespace

/-- `str::trim`. -/
def trim (s : List Char) : List Char :=
  ((s.dropWhile isRustWhitespace).reverse.dropWhile isRustWhitespace).reverse

/-- Accumulator loop for `split_ascii_whitespace`. -/
def splitAsciiWsGo (acc : List Char) : List Char → List (List Char)
  | [] => if acc.isEmpty then [] else [acc.reverse]
  | c :: cs =>
      if isAsciiWs c then
        if acc.isEmpty then splitAsciiWsGo [] cs
        else acc.reverse :: splitAsciiWsGo [] cs
      else splitAsciiWsGo (c :: acc) cs

/-- `str::split_ascii_whitespace`, collected to a list of fields. -/
def splitAsciiWs (s : List Char) : List (List Char) :=
  splitAsciiWsGo [] s

/-- The `cm` error enum (`cm/src/lib.rs`); the `Io`/`Read` variants are
unreachable when lines are given directly. -/
inductive CmError (εK εV : Type) where
  | InsufficientFields (line : Nat)
  | Key (e : εK) (line : Nat)
  | Value (e : εV) (field : Nat) (line : Nat)
deriving DecidableEq, Repr

/-- Outcome of one iteration of the `from_reader` loop body. -/
inductive LineOutcome (K V εK εV : Type) where
  | skip
  | fail (e : CmError εK εV)
  | record (key : K) (values : List V)
deriving DecidableEq, Repr

/-- Value-field parsing in `from_reader`: remaining fields after the key
are parsed in order; a failure at 1-based position `field` on line `n`
is `Value{e, field, line}`. -/
def parseValues {V εK εV : Type} (parseV : List Char → Except εV V) (n : Nat) :
    List (List Char) → Nat → Except (CmError εK εV) (List V)
  | [], _ => .ok []
  | v :: vs, field =>
      match parseV v with
      | .error e => .error (.Value e field n)
      | .ok value =>
          match parseValues parseV n vs (field + 1) with
          | .error e => .error e
          | .ok values => .ok (value :: values)

/-- The body of the `from_reader` loop for the line with 1-based number
`n`: skip comment (`trim_start` starts with `#`) and blank (`trim`
empty) lines; fewer than two whitespace-separated fields is
`InsufficientFields{n}`; otherwise parse the key and then each value. -/
def lineOutcome {K V εK εV : Type} (parseK : List Char → Except εK K)
    (parseV : List Char → Except εV V) (n : Nat) (content : List Char) :
    LineOutcome K V εK εV :=
  if startsWith ['#'] (trimStart content) || (trim content).isEmpty then .skip
  else
    match splitAsciiWs (trim content) with
    | f0 :: f1 :: rest =>
      match parseK f0 with
      | .error e => .fail (.Key e n)
      | .ok key =>
        match parseValues parseV n (f1 :: rest) 1 with
        | .error e => .fail e
        | .ok values => .record key values
    | _ => .fail (.InsufficientFields n)

/-- `IndexMap::insert`: an existing key keeps its position (and original
key value) and has its value replaced; a new key is appended. -/
def indexInsert {K V : Type} [DecidableEq K] :
    List (K × List V) → K → List V → List (K × List V)
  | [], key, vs => [(key, vs)]
  | (k, v) :: rest, key, vs =>
      if key = k then (k, vs) :: rest else (k, v) :: indexInsert rest key vs

/-- The `from_reader` loop over the remaining lines, carrying the 1-based
number of the next line and the records accumulated so far (discarded on
error, as `from_reader` returns only the error). -/
def fromLinesGo {K V εK εV : Type} [DecidableEq K]
    (parseK : List Char → Except εK K) (parseV : List Char → Except εV V) :
    List (List Char) → Nat → List (K × List V) →
    Except (CmError εK εV) (List (K × List V))
  | [], _, records => .ok records
  | content :: rest, line, records =>
      match lineOutcome parseK parseV line content with
      | .skip => fromLinesGo parseK parseV rest (line + 1) records
      | .fail e => .error e
      | .record key values =>
          fromLinesGo parseK parseV rest (line + 1) (indexInsert records key values)

/-- `Document::from_reader` from `cm/src/lib.rs`, on the list of input
lines. -/
def fromLines {K V εK εV : Type} [DecidableEq K]
    (parseK : List Char → Except εK K) (parseV : List Char → Except εV V)
    (lines : List (List Char)) : Except (CmError εK εV) (List (K × List V)) :=
  fromLinesGo parseK parseV lines 1 []

/-- The per-line records of an input, in line order (line numbers do not
affect whether a line yields a record, only error payloads). -/
def parsedRecords {K V εK εV : Type} (parseK : List Char → Except εK K)
    (parseV : List Char → Except εV V) (lines : List (List Char)) :
    List (K × List V) :=
  lines.filterMap (fun content =>
    match lineOutcome parseK parseV 0 content with
    | .record key values => some (key, values)
    | _ => none)

/-- First-appearance order of keys: each key at the position of its first
occurrence, later duplicates dropped. -/
def dedupFirst {K : Type} [DecidableEq K] (keys : List K) : List K :=
  keys.foldl (fun acc k => if k ∈ acc then acc else acc ++ [k]) []

/-! ## Helper lemmas -/

theorem lookupA_insertA {α β : Type} [DecidableEq α] (l : List (α × β))
    (k : α) (v : β) (k' : α) :
    lookupA (insertA l k v) k' = if k' = k then some v else lookupA l k' := by
  induction l with
  | nil => simp [insertA, lookupA]
  | cons hd tl ih =>
    obtain ⟨k0, v0⟩ := hd
    by_cases hk : k = k0
    · subst hk
      simp only [insertA, if_pos rfl, lookupA]
      by_cases hk' : k' = k <;> simp [hk']
    · simp only [insertA, if_neg hk, lookupA]
      by_cases hk' : k' = k0
      · subst hk'
        have : ¬(k' = k) := fun h => hk (h ▸ rfl)
        simp [lookupA, this]
      · simp [lookupA, hk', ih]

theorem lookupA_append {α β : Type} [DecidableEq α] (xs ys : List (α × β))
    (k : α) :
    lookupA (xs ++ ys) k = (lookupA xs k).orElse (fun _ => lookupA ys k) := by
  induction xs with
  | nil => simp [lookupA]
  | cons hd tl ih =>
    obtain ⟨k0, v0⟩ := hd
    by_cases hk : k = k0
    · simp [lookupA, hk]
    · simp [lookupA, hk, ih]

theorem lookupA_eq_none_iff {α β : Type} [DecidableEq α] (l : List (α × β))
    (k : α) : lookupA l k = none ↔ k ∉ l.map Prod.fst := by
  induction l with
  | nil => simp [lookupA]
  | cons hd tl ih =>
    obtain ⟨k0, v0⟩ := hd
    by_cases hk : k = k0
    · subst hk
      simp [lookupA]
    · simp [lookupA, hk, ih]

/-! ## C1: the S1 transitive-closure scenario -/

/-- Scenario S1's call graph `a→b, b→d, a→c, c→e` on indices
`a=0, b=1, c=2, d=3, e=4`. -/
def s1Edges : List (Nat × Nat) := [(0, 1), (1, 3), (0, 2), (2, 4)]

/-- Scenario S1's function table: `d` carries
`{ArbitraryExecution: Direct}`, the others nothing. -/
def s1Functions : List Function :=
  [ { name := .Rust "a".toList (.Bare "a".toList), location := none,
      capabilities := [], syscalls := [] },
    { name := .Rust "b".toList (.Bare "b".toList), location := none,
      capabilities := [], syscalls := [] },
    { name := .Rust "c".toList (.Bare "c".toList), location := none,
      capabilities := [], syscalls := [] },
    { name := .Rust "d".toList (.Bare "d".toList), location := none,
      capabilities := [(Capability.ArbitraryExecution, CapabilityType.Direct)],
      syscalls := [] },
    { name := .Rust "e".toList (.Bare "e".toList), location := none,
      capabilities := [], syscalls := [] } ]

/-- C1: on the S1 graph `a→b, b→d, a→c, c→e` with only `d` carrying
`ArbitraryExecution` as `Direct`, `bubble_transitive_capabilities`
reaches a fixed point in which `a` and `b` carry `ArbitraryExecution` as
`Transitive`, `d` keeps it as `Direct`, and `c` and `e` carry no
capabilities (a further pass changes nothing). -/
theorem bubble_s1_fixed_point :
    (bubble_transitive_capabilities s1Edges s1Functions).map
        Function.capabilities =
      [[(Capability.ArbitraryExecution, CapabilityType.Transitive)],
       [(Capability.ArbitraryExecution, CapabilityType.Transitive)],
       [],
       [(Capability.ArbitraryExecution, CapabilityType.Direct)],
       []] ∧
    bubblePass s1Edges (bubble_transitive_capabilities s1Edges s1Functions)
        false =
      (bubble_transitive_capabilities s1Edges s1Functions, false) := by
  exact ⟨by decide, by decide⟩

/-! ## C6: ioctl capability dispatch -/

/-- C6: for every ioctl command and FD type, the resolver returns `{SAFE}`
for `Char`, `{FILES}` for `Directory`/`File`/`AF_UNIX` sockets,
`{NETWORK}` for other sockets and socket inodes, and the `Ioctl{cmd, ty}`
error for `Block`, `Fifo` and `Unknown`, regardless of the command. -/
theorem ioctl_caps_dispatch (cmd : Nat) (ty : FdType) :
    ioctlCaps cmd ty = claimedIoctlCaps cmd ty := by
  cases ty with
  | Socket domain sockTy => cases domain <;> rfl
  | _ => rfl

/-! ## C3: SAFE suppression in `Process` serialization -/

/-- C3 counterexample: a process whose capability set is exactly `{SAFE}`
serializes with an empty `capabilities` array, not
`["CAPABILITY_SAFE"]` — the `Serialize` impl filters `Safe`
unconditionally. -/
theorem serialize_safe_only_counterexample :
    serializeProcessCapabilities [Capability.Safe] = [] ∧
    serializeProcessCapabilities [Capability.Safe] ≠ ["CAPABILITY_SAFE"] := by
  exact ⟨by decide, by decide⟩

/-- The serde string of a capability is `"CAPABILITY_SAFE"` exactly for
`Safe`. -/
theorem toSerde_eq_safe_iff (c : Capability) :
    Capability.toSerde c = "CAPABILITY_SAFE" ↔ c = Capability.Safe := by
  cases c <;> simp [Capability.toSerde]

/-- C3 amended: JSON serialization of a `Process` always excludes
`CAPABILITY_SAFE` from the top-level capabilities list (even when it is
the only capability); every other capability in the set is emitted.  In
particular `{SAFE}` serializes with `[]` and `{SAFE, FILES}` with
`["CAPABILITY_FILES"]`. -/
theorem serialize_process_strips_safe :
    (∀ capabilities : List Capability,
      "CAPABILITY_SAFE" ∉ serializeProcessCapabilities capabilities) ∧
    (∀ capabilities : List Capability, ∀ c : Capability,
      c ∈ capabilities → c ≠ Capability.Safe →
        Capability.toSerde c ∈ serializeProcessCapabilities capabilities) ∧
    serializeProcessCapabilities [Capability.Safe] = [] ∧
    serializeProcessCapabilities [Capability.Safe, Capability.Files] =
      ["CAPABILITY_FILES"] := by
  refine ⟨?_, ?_, by decide, by decide⟩
  · intro capabilities hmem
    simp only [serializeProcessCapabilities, List.mem_map, List.mem_filter]
      at hmem
    obtain ⟨c, ⟨_, hc⟩, hser⟩ := hmem
    rw [toSerde_eq_safe_iff] at hser
    subst hser
    simp at hc
  · intro capabilities c hc hne
    simp only [serializeProcessCapabilities, List.mem_map, List.mem_filter]
    exact ⟨c, ⟨hc, by simpa using hne⟩, rfl⟩

/-- Instantiation of the amended C3 theorem at the S6 inputs. -/
theorem serialize_process_strips_safe_witness :
    "CAPABILITY_SAFE" ∉
        serializeProcessCapabilities [Capability.Safe, Capability.Files] ∧
    Capability.toSerde Capability.Files ∈
      serializeProcessCapabilities [Capability.Safe, Capability.Files] :=
  ⟨serialize_process_strips_safe.1 [Capability.Safe, Capability.Files],
   serialize_process_strips_safe.2.1 [Capability.Safe, Capability.Files]
     Capability.Files (by decide) (by decide)⟩

/-! ## C10: `FunctionMap::upsert` frame behaviour -/

/-- C10: upserting an already-known mangled name returns its stored index
and leaves the map — function array, stored entries, id table — entirely
unchanged, discarding the supplied function; upserting an unseen name
appends it at an index equal to the previous array length. -/
theorem upsert_frame (self : FunctionMap) (mangled : List Char)
    (function : Function) :
    (∀ idx, lookupA self.ids mangled = some idx →
      FunctionMap.upsert self mangled function = (idx, self)) ∧
    (lookupA self.ids mangled = none →
      FunctionMap.upsert self mangled function =
        (self.functions.length,
         { functions := self.functions ++ [function],
           ids := self.ids ++ [(mangled, self.functions.length)] })) := by
  constructor
  · intro idx h
    simp [FunctionMap.upsert, h]
  · intro h
    simp [FunctionMap.upsert, h]

/-- A sample stored function for the upsert witness. -/
def upsertSampleStored : Function :=
  { name := .Rust "old".toList (.Bare "old".toList), location := none,
    capabilities := [(Capability.Files, CapabilityType.Direct)],
    syscalls := [] }

/-- A sample argument function for the upsert witness. -/
def upsertSampleArg : Function :=
  { name := .Rust "new".toList (.Bare "new".toList), location := none,
    capabilities := [(Capability.Network, CapabilityType.Direct)],
    syscalls := [] }

/-- Instantiation of the C10 theorem: re-upserting a known mangled name
returns index 0 and the unchanged map (the argument's capabilities are
dropped); upserting a fresh name appends at index 1. -/
theorem upsert_frame_witness :
    FunctionMap.upsert
        { functions := [upsertSampleStored], ids := [("m".toList, 0)] }
        "m".toList upsertSampleArg =
      (0, { functions := [upsertSampleStored], ids := [("m".toList, 0)] }) ∧
    FunctionMap.upsert
        { functions := [upsertSampleStored], ids := [("m".toList, 0)] }
        "n".toList upsertSampleArg =
      (1, { functions := [upsertSampleStored, upsertSampleArg],
            ids := [("m".toList, 0), ("n".toList, 1)] }) :=
  ⟨(upsert_frame { functions := [upsertSampleStored], ids := [("m".toList, 0)] }
      "m".toList upsertSampleArg).1 0 (by decide),
   (upsert_frame { functions := [upsertSampleStored], ids := [("m".toList, 0)] }
      "n".toList upsertSampleArg).2 (by decide)⟩

/-! ## C2: capability monotonicity of the bubble loop -/

/-- Unfolding of one inner-loop step of `bubbleCaps`. -/
theorem bubbleCaps_cons (cap : Capability) (rest : List Capability)
    (f : Function) (ch : Bool) :
    bubbleCaps (cap :: rest) f ch =
      if containsKey f.capabilities cap then bubbleCaps rest f ch
      else
        bubbleCaps rest
          { f with capabilities :=
              insertA f.capabilities cap CapabilityType.Transitive } true := by
  by_cases hcap : containsKey f.capabilities cap <;>
    simp [bubbleCaps, List.foldl_cons, hcap]

/-- `bubbleCaps` never changes an existing capability entry: it only
inserts keys the caller lacks. -/
theorem bubbleCaps_preserve (l : List Capability) (f : Function) (ch : Bool)
    (c : Capability) (ty : CapabilityType)
    (h : lookupA f.capabilities c = some ty) :
    lookupA (bubbleCaps l f ch).1.capabilities c = some ty := by
  induction l generalizing f ch with
  | nil => exact h
  | cons cap rest ih =>
    rw [bubbleCaps_cons]
    by_cases hcap : containsKey f.capabilities cap
    · rw [if_pos hcap]
      exact ih f ch h
    · rw [if_neg hcap]
      refine ih _ true ?_
      have hne : ¬(c = cap) := by
        intro he
        subst he
        rw [containsKey, h] at hcap
        exact hcap rfl
      simp [lookupA_insertA, hne, h]

/-- `cur` keeps (at the same index) every capability entry of `orig`. -/
def capsPreserved (orig cur : List Function) : Prop :=
  ∀ (i : Nat) (f : Function) (c : Capability) (ty : CapabilityType),
    orig[i]? = some f → lookupA f.capabilities c = some ty →
      ∃ f', cur[i]? = some f' ∧ lookupA f'.capabilities c = some ty

theorem capsPreserved_refl (fns : List Function) : capsPreserved fns fns :=
  fun _ f _ _ hi hc => ⟨f, hi, hc⟩

theorem capsPreserved_trans {a b c : List Function}
    (h1 : capsPreserved a b) (h2 : capsPreserved b c) : capsPreserved a c := by
  intro i f cap ty hi hc
  obtain ⟨f', hi', hc'⟩ := h1 i f cap ty hi hc
  exact h2 i f' cap ty hi' hc'

/-- Setting index `i` to a function that keeps all of the old entries at
`i` preserves every capability entry of the list. -/
theorem capsPreserved_set (fns : List Function) (i : Nat) (caller g : Function)
    (hi : fns[i]? = some caller)
    (hpres : ∀ c ty, lookupA caller.capabilities c = some ty →
      lookupA g.capabilities c = some ty) :
    capsPreserved fns (fns.set i g) := by
  intro j f c ty hj hc
  by_cases hij : i = j
  · subst hij
    rw [hi] at hj
    cases hj
    refine ⟨g, ?_, hpres c ty hc⟩
    have hlt : i < fns.length := by
      by_contra hge
      rw [List.getElem?_eq_none (Nat.le_of_not_lt hge)] at hi
      exact Option.noConfusion hi
    exact List.getElem?_set_eq_of_lt g hlt
  · exact ⟨f, by rw [List.getElem?_set_ne hij]; exact hj, hc⟩

/-- Unfolding of one edge visit of `bubblePass`. -/
theorem bubblePass_cons (e : Nat × Nat) (rest : List (Nat × Nat))
    (fns : List Function) (ch : Bool) :
    bubblePass (e :: rest) fns ch =
      match fns[e.2]?, fns[e.1]? with
      | some callee, some caller =>
          let r := bubbleCaps (sortCaps (callee.capabilities.map Prod.fst))
            caller ch
          bubblePass rest (fns.set e.1 r.1) r.2
      | _, _ => bubblePass rest fns ch := by
  cases hcallee : fns[e.2]? <;> cases hcaller : fns[e.1]? <;>
    simp [bubblePass, List.foldl_cons, hcallee, hcaller]

/-- One pass of the bubble loop preserves every existing capability
entry. -/
theorem bubblePass_preserves (edges : List (Nat × Nat)) :
    ∀ (fns : List Function) (ch : Bool),
      capsPreserved fns (bubblePass edges fns ch).1 := by
  induction edges with
  | nil => exact fun fns ch => capsPreserved_refl fns
  | cons e rest ih =>
    intro fns ch
    rw [bubblePass_cons]
    cases hcallee : fns[e.2]? with
    | none => simp only [hcallee]; exact ih fns ch
    | some callee =>
      cases hcaller : fns[e.1]? with
      | none => simp only [hcaller]; exact ih fns ch
      | some caller =>
        simp only [hcallee, hcaller]
        refine capsPreserved_trans
          (capsPreserved_set fns e.1 caller _ hcaller ?_) (ih _ _)
        intro c ty hc
        exact bubbleCaps_preserve _ caller ch c ty hc

/-- The fuelled `while changed` loop preserves every existing capability
entry. -/
theorem bubbleLoop_preserves (fuel : Nat) (edges : List (Nat × Nat)) :
    ∀ fns : List Function, capsPreserved fns (bubbleLoop fuel edges fns) := by
  induction fuel with
  | zero => exact fun fns => capsPreserved_refl fns
  | succ n ih =>
    intro fns
    simp only [bubbleLoop]
    by_cases hch : (bubblePass edges fns false).2
    · rw [if_pos hch]
      exact capsPreserved_trans (bubblePass_preserves edges fns false)
        (ih _)
    · rw [if_neg hch]
      exact bubblePass_preserves edges fns false

theorem CapabilityType.le_refl (ty : CapabilityType) :
    CapabilityType.le ty ty = true := by
  cases ty <;> decide

theorem CapabilityType.le_max_right (a b : CapabilityType) :
    CapabilityType.le b (CapabilityType.max a b) = true := by
  cases a <;> cases b <;> decide

/-- C2: `bubble_transitive_capabilities` is monotone — every capability
entry `(c, ty)` a function has before the loop is still present
afterwards with a type at least `ty` under the hand-written
`CapabilityType` order (in fact unchanged, so a `Direct` is never
downgraded); `Function::insert_capability` stores the maximum of the
existing and supplied types (the supplied type when the key is vacant),
never below the supplied type; and that order ranks
`Unspecified < Transitive < Direct`. -/
theorem bubble_monotone (edges : List (Nat × Nat)) (fns : List Function)
    (i : Nat) (f : Function) (c : Capability) (ty : CapabilityType)
    (hf : fns[i]? = some f)
    (hc : lookupA f.capabilities c = some ty) :
    (∃ f', (bubble_transitive_capabilities edges fns)[i]? = some f' ∧
      ∃ ty', lookupA f'.capabilities c = some ty' ∧
        CapabilityType.le ty ty' = true) ∧
    (∀ (g : Function) (cap : Capability) (t : CapabilityType),
      ∃ stored,
        lookupA (Function.insert_capability g cap t).capabilities cap =
          some stored ∧
        CapabilityType.le t stored = true ∧
        stored = (match lookupA g.capabilities cap with
                  | none => t
                  | some existing => CapabilityType.max existing t)) ∧
    (CapabilityType.le CapabilityType.Unspecified CapabilityType.Transitive
        = true ∧
     CapabilityType.le CapabilityType.Transitive CapabilityType.Direct
        = true ∧
     CapabilityType.le CapabilityType.Direct CapabilityType.Transitive
        = false ∧
     CapabilityType.le CapabilityType.Transitive CapabilityType.Unspecified
        = false) := by
  refine ⟨?_, ?_, by decide, by decide, by decide, by decide⟩
  · obtain ⟨f', hi', hc'⟩ :=
      bubbleLoop_preserves (fns.length * 18 + 1) edges fns i f c ty hf hc
    exact ⟨f', hi', ty, hc', CapabilityType.le_refl ty⟩
  · intro g cap t
    cases hl : lookupA g.capabilities cap with
    | none =>
      refine ⟨t, ?_, CapabilityType.le_refl t, rfl⟩
      simp [Function.insert_capability, hl, lookupA_insertA]
    | some existing =>
      refine ⟨CapabilityType.max existing t, ?_,
        CapabilityType.le_max_right existing t, rfl⟩
      simp [Function.insert_capability, hl, lookupA_insertA]

/-- Instantiation of the C2 theorem at the S1 scenario: `d`'s `Direct`
`ArbitraryExecution` survives the bubble loop. -/
theorem bubble_monotone_witness :
    (∃ f', (bubble_transitive_capabilities s1Edges s1Functions)[3]? =
        some f' ∧
      ∃ ty', lookupA f'.capabilities Capability.ArbitraryExecution =
          some ty' ∧
        CapabilityType.le CapabilityType.Direct ty' = true) ∧
    (∀ (g : Function) (cap : Capability) (t : CapabilityType),
      ∃ stored,
        lookupA (Function.insert_capability g cap t).capabilities cap =
          some stored ∧
        CapabilityType.le t stored = true ∧
        stored = (match lookupA g.capabilities cap with
                  | none => t
                  | some existing => CapabilityType.max existing t)) ∧
    (CapabilityType.le CapabilityType.Unspecified CapabilityType.Transitive
        = true ∧
     CapabilityType.le CapabilityType.Transitive CapabilityType.Direct
        = true ∧
     CapabilityType.le CapabilityType.Direct CapabilityType.Transitive
        = false ∧
     CapabilityType.le CapabilityType.Transitive CapabilityType.Unspecified
        = false) :=
  bubble_monotone s1Edges s1Functions 3 (s1Functions.get ⟨3, by decide⟩)
    Capability.ArbitraryExecution CapabilityType.Direct (by decide) (by decide)

/-! ## C4: seccomp syscall retrieval -/

/-- A capability set is the singleton `{Safe}` exactly when its size is 1
and it contains `Safe` (the test `get_syscalls` performs). -/
theorem card_one_safe_iff (caps : Finset Capability) :
    (caps.card = 1 ∧ Capability.Safe ∈ caps) ↔ caps = {Capability.Safe} := by
  constructor
  · rintro ⟨hcard, hmem⟩
    obtain ⟨a, rfl⟩ := Finset.card_eq_one.mp hcard
    rw [Finset.mem_singleton] at hmem
    rw [hmem]
  · rintro rfl
    exact ⟨Finset.card_singleton _, Finset.mem_singleton_self _⟩

/-- C4: `get_syscalls` emits exactly the table entries whose capability
set is a subset of the required set or is exactly `{Safe}` — every
emitted syscall satisfies the condition, and every table entry satisfying
it is emitted. -/
theorem get_syscalls_subset_correct
    (table : List (List Char × Finset Capability))
    (required : Finset Capability) (s : List Char) :
    s ∈ get_syscalls table required ↔
      ∃ caps : Finset Capability, (s, caps) ∈ table ∧
        (caps ⊆ required ∨ caps = {Capability.Safe}) := by
  simp only [get_syscalls, List.mem_map, List.mem_filter]
  constructor
  · rintro ⟨⟨s', caps⟩, ⟨htab, hcond⟩, rfl⟩
    refine ⟨caps, htab, ?_⟩
    simp only [Bool.or_eq_true, Bool.and_eq_true, decide_eq_true_eq] at hcond
    rcases hcond with ⟨hcard, hmem⟩ | hsub
    · exact Or.inr ((card_one_safe_iff caps).mp ⟨hcard, hmem⟩)
    · exact Or.inl hsub
  · rintro ⟨caps, htab, hcond⟩
    refine ⟨(s, caps), ⟨htab, ?_⟩, rfl⟩
    simp only [Bool.or_eq_true, Bool.and_eq_true, decide_eq_true_eq]
    rcases hcond with hsub | hsafe
    · exact Or.inr hsub
    · exact Or.inl ((card_one_safe_iff caps).mpr hsafe)

/-! ## C5: clone inheritance in `Map::spawn` -/

/-- `stripPrefixChar` inverts the cons. -/
theorem stripPrefixChar_eq_some {c : Char} {s rest : List Char} :
    stripPrefixChar c s = some rest ↔ s = c :: rest := by
  cases s with
  | nil => simp [stripPrefixChar]
  | cons x xs =>
    by_cases hx : x = c
    · subst hx
      simp [stripPrefixChar]
    · simp [stripPrefixChar, hx, Ne.symm hx]

/-- C5: a `Clone` handled by `Map::spawn` succeeds when the parent is
active, and the child's state carries the parent's working directory and
the parent's FD table restricted to entries whose `O_CLOEXEC` flag is
clear (with fresh exec history and the child's pid); the parent's state
is unchanged. -/
theorem spawn_clone (m : ProcessMap) (parent child : Nat) (p : State)
    (hp : lookupA m.active parent = some p) (hne : child ≠ parent) :
    ∃ m', ProcessMap.spawn m parent child = .ok m' ∧
      (∃ cs, lookupA m'.active child = some cs ∧
        cs.wd = p.wd ∧
        cs.fds = p.fds.filter (fun e => !(e.2.is_cloexec)) ∧
        cs.execs = [] ∧ cs.pid = child) ∧
      lookupA m'.active parent = some p := by
  simp only [ProcessMap.spawn, hp]
  refine ⟨_, rfl,
    ⟨⟨[], p.fds.filter (fun e => !(e.2.is_cloexec)), child,
      !m.include_before_start, p.wd, [], [], ⟨[], []⟩⟩,
     ?_, rfl, rfl, rfl, rfl⟩, ?_⟩
  · rw [lookupA_insertA]
    simp
  · rw [lookupA_insertA, if_neg (fun h => hne h.symm), hp]

/-- The S5 parent state: fd 3 is a plain file with no flags, fd 4 a
socket opened with `O_CLOEXEC`. -/
def s5Parent : State :=
  { execs := []
    fds := [(3, { flags := 0, ty := FdType.File "/tmp/x".toList }),
            (4, { flags := O_CLOEXEC,
                  ty := FdType.Socket AddressFamily.Inet SockType.Stream })]
    pid := 1
    waiting_for_start := false
    wd := "/home".toList
    call_graph := []
    caps := []
    functions := { functions := [], ids := [] } }

/-- The S5 process map: pid 1 active with the S5 parent state. -/
def s5Map : ProcessMap :=
  { active := [(1, s5Parent)], inactive := [],
    include_before_start := false, init_pid := 1 }

/-- Instantiation of the C5 theorem at the S5 scenario, together with
the evaluation showing the inherited FD table is exactly `{3}`. -/
theorem spawn_clone_witness :
    (∃ m', ProcessMap.spawn s5Map 1 2 = .ok m' ∧
      (∃ cs, lookupA m'.active 2 = some cs ∧
        cs.wd = s5Parent.wd ∧
        cs.fds = s5Parent.fds.filter (fun e => !(e.2.is_cloexec)) ∧
        cs.execs = [] ∧ cs.pid = 2) ∧
      lookupA m'.active 1 = some s5Parent) ∧
    s5Parent.fds.filter (fun e => !(e.2.is_cloexec)) =
      [(3, { flags := 0, ty := FdType.File "/tmp/x".toList })] :=
  ⟨spawn_clone s5Map 1 2 s5Parent (by decide) (by decide), by decide⟩

/-! ## C7: Rust display-name parsing -/

/-- An ` as ` occurrence in a name beginning with `<` lies entirely in
the stripped remainder: the split of the full name is the split of the
remainder with the `<` re-attached. -/
theorem splitOnce_as_cons_lt (rest : List Char) :
    splitOnce (" as ".toList) ('<' :: rest) =
      (splitOnce (" as ".toList) rest).map (fun r => ('<' :: r.1, r.2)) := by
  have h1 : " as ".toList = [' ', 'a', 's', ' '] := rfl
  have hsw : startsWith [' ', 'a', 's', ' '] ('<' :: rest) = false := rfl
  rw [h1]
  simp [splitOnce, hsw]

/-- C7: `parse_rust_function_name` follows the claimed procedure (trait
method for `<` + ` as ` with `>::`, else `MalformedTraitMethod`; struct
method for `<` without ` as `, else `MalformedMethod`; struct method at
the rightmost `::` for names not starting with `<` nor ending in `>`;
bare otherwise), and in particular `no_mangle` is bare, `foo::bar` a
struct method and `<T as Trait>::m` a trait method. -/
theorem parse_rust_function_name_spec :
    (∀ s : List Char,
      parse_rust_function_name s = claimedRustNameParse s) ∧
    parse_rust_function_name "no_mangle".toList =
      .ok (.Bare "no_mangle".toList) ∧
    parse_rust_function_name "foo::bar".toList =
      .ok (.StructMethod "foo".toList "bar".toList) ∧
    parse_rust_function_name "<T as Trait>::m".toList =
      .ok (.TraitMethod "Trait".toList "T".toList "m".toList) := by
  refine ⟨?_, rfl, rfl, rfl⟩
  intro s
  cases hstrip : stripPrefixChar '<' s with
  | none =>
    simp only [parse_rust_function_name, claimedRustNameParse, hstrip]
    by_cases hend : endsWithChar '>' s
    · simp [hend]
    · cases hr : rsplitOnce ("::".toList) s with
      | none => simp [hend, hr]
      | some pr => simp [hend, hr]
  | some rest =>
    obtain rfl : s = '<' :: rest := stripPrefixChar_eq_some.mp hstrip
    simp only [parse_rust_function_name, claimedRustNameParse, hstrip,
      splitOnce_as_cons_lt]
    cases hsplit : splitOnce (" as ".toList) rest with
    | none => simp [hsplit]
    | some pr => simp [hsplit]

/-! ## C8: cm skipping and `InsufficientFields` -/

/-- C8: in `Document::from_reader`, comment lines (first non-whitespace
character `#`) and blank lines are skipped; a non-skipped line with fewer
than two whitespace-separated fields fails the whole load with
`InsufficientFields` carrying that line's 1-based number (a bad first
line reports line 1); and a failing load returns no records. -/
theorem cm_skip_and_insufficient {K V εK εV : Type} [DecidableEq K]
    (parseK : List Char → Except εK K) (parseV : List Char → Except εV V) :
    (∀ (content : List Char) (rest : List (List Char)) (n : Nat)
        (records : List (K × List V)),
      (startsWith ['#'] (trimStart content) || (trim content).isEmpty)
          = true →
        fromLinesGo parseK parseV (content :: rest) n records =
          fromLinesGo parseK parseV rest (n + 1) records) ∧
    (∀ (content : List Char) (rest : List (List Char)) (n : Nat)
        (records : List (K × List V)),
      (startsWith ['#'] (trimStart content) || (trim content).isEmpty)
          = false →
        (splitAsciiWs (trim content)).length < 2 →
          fromLinesGo parseK parseV (content :: rest) n records =
            .error (.InsufficientFields n)) ∧
    (∀ (content : List Char) (rest : List (List Char)),
      (startsWith ['#'] (trimStart content) || (trim content).isEmpty)
          = false →
        (splitAsciiWs (trim content)).length < 2 →
          fromLines parseK parseV (content :: rest) =
            .error (.InsufficientFields 1)) ∧
    (∀ (lines : List (List Char)) (line : Nat)
        (records : List (K × List V)),
      fromLines parseK parseV lines = .error (.InsufficientFields line) →
        fromLines parseK parseV lines ≠ .ok records) := by
  have hskip : ∀ (content : List Char) (rest : List (List Char)) (n : Nat)
      (records : List (K × List V)),
      (startsWith ['#'] (trimStart content) || (trim content).isEmpty)
          = true →
        fromLinesGo parseK parseV (content :: rest) n records =
          fromLinesGo parseK parseV rest (n + 1) records := by
    intro content rest n records h
    simp [fromLinesGo, lineOutcome, h]
  have hinsuf : ∀ (content : List Char) (rest : List (List Char)) (n : Nat)
      (records : List (K × List V)),
      (startsWith ['#'] (trimStart content) || (trim content).isEmpty)
          = false →
        (splitAsciiWs (trim content)).length < 2 →
          fromLinesGo parseK parseV (content :: rest) n records =
            .error (.InsufficientFields n) := by
    intro content rest n records h hlen
    simp only [fromLinesGo, lineOutcome, h, Bool.false_eq_true, if_false]
    cases hsplit : splitAsciiWs (trim content) with
    | nil => simp [hsplit]
    | cons f0 tl =>
      cases tl with
      | nil => simp [hsplit]
      | cons f1 tl2 =>
        exfalso
        rw [hsplit] at hlen
        simp at hlen
        omega
  refine ⟨hskip, hinsuf, ?_, ?_⟩
  · intro content rest h hlen
    exact hinsuf content rest 1 [] h hlen
  · intro lines line records herr hok
    rw [herr] at hok
    exact Except.noConfusion hok

/-- The identity key/value parser used to instantiate the cm theorems. -/
def okParser (s : List Char) : Except Unit (List Char) := .ok s

/-- Instantiation of the C8 theorem: a comment line is skipped, a
one-field line on line 5 fails with `InsufficientFields 5`, a bad first
line reports line 1, and the failing load yields no records. -/
theorem cm_skip_and_insufficient_witness :
    fromLinesGo okParser okParser ["# hi".toList, "k v".toList] 1 [] =
      fromLinesGo okParser okParser ["k v".toList] 2 [] ∧
    fromLinesGo okParser okParser ["bad".toList] 5 [] =
      .error (.InsufficientFields 5) ∧
    fromLines okParser okParser ["bad".toList, "k v".toList] =
      .error (.InsufficientFields 1) ∧
    fromLines okParser okParser ["bad".toList] ≠ .ok [] :=
  ⟨(cm_skip_and_insufficient okParser okParser).1 "# hi".toList
      ["k v".toList] 1 [] (by decide),
   (cm_skip_and_insufficient okParser okParser).2.1 "bad".toList [] 5 []
      (by decide) (by decide),
   (cm_skip_and_insufficient okParser okParser).2.2.1 "bad".toList
      ["k v".toList] (by decide) (by decide),
   (cm_skip_and_insufficient okParser okParser).2.2.2 ["bad".toList] 1 []
      (by rfl)⟩

/-! ## C9: duplicate keys and insertion order in cm documents -/

/-- `indexInsert` coincides with the association-list insert (both
replace in place, keeping the first occurrence's position). -/
theorem indexInsert_eq_insertA {K V : Type} [DecidableEq K]
    (a : List (K × List V)) (k : K) (vs : List V) :
    indexInsert a k vs = insertA a k vs := by
  induction a with
  | nil => rfl
  | cons hd tl ih =>
    obtain ⟨k0, v0⟩ := hd
    by_cases hk : k = k0 <;> simp [indexInsert, insertA, hk, ih]

theorem containsKey_iff {α β : Type} [DecidableEq α] (l : List (α × β))
    (k : α) : containsKey l k = true ↔ k ∈ l.map Prod.fst := by
  rw [containsKey, Option.isSome_iff_ne_none]
  rw [ne_eq, lookupA_eq_none_iff, not_not]

/-- Key order after an insert: unchanged for a known key, the new key
appended otherwise. -/
theorem map_fst_insertA {α β : Type} [DecidableEq α] (l : List (α × β))
    (k : α) (v : β) :
    (insertA l k v).map Prod.fst =
      if k ∈ l.map Prod.fst then l.map Prod.fst
      else l.map Prod.fst ++ [k] := by
  induction l with
  | nil => simp [insertA]
  | cons hd tl ih =>
    obtain ⟨k0, v0⟩ := hd
    by_cases hk : k = k0
    · subst hk
      simp [insertA]
    · simp only [insertA, if_neg hk, List.map_cons, ih]
      by_cases hmem : k ∈ tl.map Prod.fst
      · simp [hmem, hk]
      · simp [hmem, hk]

/-- Folding `indexInsert` over a record list (the loop of
`from_reader`). -/
def applyRecords {K V : Type} [DecidableEq K]
    (recs acc : List (K × List V)) : List (K × List V) :=
  recs.foldl (fun a r => indexInsert a r.1 r.2) acc

/-- Successful value parsing does not depend on the line number (it only
decorates errors). -/
theorem parseValues_ok_irrel {V εK εV : Type}
    (parseV : List Char → Except εV V) (n m : Nat)
    (vs : List (List Char)) (field : Nat) (l : List V)
    (h : @parseValues V εK εV parseV n vs field = .ok l) :
    @parseValues V εK εV parseV m vs field = .ok l := by
  induction vs generalizing field l with
  | nil =>
    simp only [parseValues] at h ⊢
    exact h
  | cons v vs ih =>
    simp only [parseValues] at h ⊢
    split at h
    · exact absurd h (by simp)
    · rename_i value hv
      split at h
      · exact absurd h (by simp)
      · rename_i values hrec
        have hl : value :: values = l := by simpa using h
        subst hl
        simp [hv, ih (field + 1) values hrec]

/-- Whether a line yields a record — and which record — does not depend
on the line number. -/
theorem lineOutcome_record_irrel {K V εK εV : Type}
    (parseK : List Char → Except εK K) (parseV : List Char → Except εV V)
    (n m : Nat) (content : List Char) (k : K) (vs : List V)
    (h : lineOutcome parseK parseV n content = .record k vs) :
    lineOutcome parseK parseV m content = .record k vs := by
  simp only [lineOutcome] at h ⊢
  by_cases hc : (startsWith ['#'] (trimStart content) ||
      (trim content).isEmpty) = true
  · rw [if_pos hc] at h
    exact absurd h (by simp)
  · rw [if_neg hc] at h
    rw [if_neg hc]
    split at h
    · rename_i f0 f1 tl2 hsplit
      split at h
      · exact absurd h (by simp)
      · rename_i key hk
        split at h
        · exact absurd h (by simp)
        · rename_i values hv
          have hkv : key = k ∧ values = vs := by
            refine ⟨?_, ?_⟩ <;> injection h
          obtain ⟨rfl, rfl⟩ := hkv
          simp [hsplit, hk,
            parseValues_ok_irrel parseV n m (f1 :: tl2) 1 values hv]
    · exact absurd h (by simp)

/-- A successful `from_reader` run computes exactly the `indexInsert`
fold of the per-line records over the starting accumulator. -/
theorem fromLinesGo_ok {K V εK εV : Type} [DecidableEq K]
    (parseK : List Char → Except εK K) (parseV : List Char → Except εV V)
    (lines : List (List Char)) (n : Nat)
    (records out : List (K × List V))
    (h : fromLinesGo parseK parseV lines n records = .ok out) :
    out = applyRecords (parsedRecords parseK parseV lines) records := by
  induction lines generalizing n records with
  | nil =>
    simp only [fromLinesGo] at h
    cases h
    rfl
  | cons content rest ih =>
    simp only [fromLinesGo] at h
    cases hlo : lineOutcome parseK parseV n content with
    | skip =>
      rw [hlo] at h
      have hnr : ∀ (k : K) (vs : List V),
          lineOutcome parseK parseV 0 content ≠ .record k vs := by
        intro k vs hcontra
        have := lineOutcome_record_irrel parseK parseV 0 n content k vs
          hcontra
        rw [hlo] at this
        exact LineOutcome.noConfusion this
      cases hlo0 : lineOutcome parseK parseV 0 content with
      | skip =>
        simp only [parsedRecords, List.filterMap_cons, hlo0]
        exact ih (n + 1) records h
      | fail e =>
        simp only [parsedRecords, List.filterMap_cons, hlo0]
        exact ih (n + 1) records h
      | record k vs => exact absurd hlo0 (hnr k vs)
    | fail e =>
      rw [hlo] at h
      exact Except.noConfusion h
    | record k vs =>
      rw [hlo] at h
      have hlo0 := lineOutcome_record_irrel parseK parseV n 0 content k vs hlo
      simp only [parsedRecords, List.filterMap_cons, hlo0]
      exact ih (n + 1) (indexInsert records k vs) h

/-- Lookups into the fold of `indexInsert`: the last record for a key
wins; keys absent from the records fall through to the accumulator. -/
theorem lookupA_applyRecords {K V : Type} [DecidableEq K]
    (recs acc : List (K × List V)) (k : K) :
    lookupA (applyRecords recs acc) k =
      (lookupA recs.reverse k).orElse (fun _ => lookupA acc k) := by
  induction recs generalizing acc with
  | nil => rfl
  | cons r rs ih =>
    show lookupA (applyRecords rs (indexInsert acc r.1 r.2)) k = _
    rw [ih, List.reverse_cons, lookupA_append]
    cases hr : lookupA rs.reverse k with
    | some v => rfl
    | none =>
      show lookupA (indexInsert acc r.1 r.2) k = _
      rw [indexInsert_eq_insertA, lookupA_insertA]
      by_cases hk : k = r.1
      · subst hk
        simp [lookupA]
      · simp [lookupA, hk]

/-- Key order of the fold of `indexInsert`: first-appearance order. -/
theorem map_fst_applyRecords {K V : Type} [DecidableEq K]
    (recs acc : List (K × List V)) :
    (applyRecords recs acc).map Prod.fst =
      (recs.map Prod.fst).foldl
        (fun ks k => if k ∈ ks then ks else ks ++ [k])
        (acc.map Prod.fst) := by
  induction recs generalizing acc with
  | nil => rfl
  | cons r rs ih =>
    show (applyRecords rs (indexInsert acc r.1 r.2)).map Prod.fst = _
    rw [ih, indexInsert_eq_insertA, map_fst_insertA]
    rfl

/-- Membership in the dedup fold. -/
theorem mem_dedup_foldl {K : Type} [DecidableEq K] (ks : List K) :
    ∀ (acc : List K) (k : K),
      k ∈ ks.foldl (fun a k' => if k' ∈ a then a else a ++ [k']) acc ↔
        k ∈ acc ∨ k ∈ ks := by
  induction ks with
  | nil => simp
  | cons k0 rest ih =>
    intro acc k
    rw [List.foldl_cons, ih]
    by_cases h0 : k0 ∈ acc
    · simp only [if_pos h0, List.mem_cons]
      constructor
      · rintro (h | h)
        · exact Or.inl h
        · exact Or.inr (Or.inr h)
      · rintro (h | rfl | h)
        · exact Or.inl h
        · exact Or.inl h0
        · exact Or.inr h
    · simp only [if_neg h0, List.mem_append, List.mem_singleton,
        List.mem_cons]
      tauto

/-- The dedup fold of a duplicate-free accumulator stays
duplicate-free. -/
theorem nodup_dedup_foldl {K : Type} [DecidableEq K] (ks : List K) :
    ∀ acc : List K, acc.Nodup →
      (ks.foldl (fun a k' => if k' ∈ a then a else a ++ [k']) acc).Nodup := by
  induction ks with
  | nil => exact fun acc h => h
  | cons k0 rest ih =>
    intro acc hacc
    rw [List.foldl_cons]
    by_cases h0 : k0 ∈ acc
    · rw [if_pos h0]
      exact ih acc hacc
    · rw [if_neg h0]
      refine ih _ ?_
      simp [List.nodup_append, hacc, h0]

/-- C9: when a successfully parsed cm document has a key on more than one
record line, the resulting document holds that key exactly once, bound to
the last record's value list, and the key sequence is the
first-appearance order of the records' keys. -/
theorem cm_duplicate_keys {K V εK εV : Type} [DecidableEq K]
    (parseK : List Char → Except εK K) (parseV : List Char → Except εV V)
    (lines : List (List Char)) (recs : List (K × List V)) (k : K)
    (hok : fromLines parseK parseV lines = .ok recs)
    (hdup : 2 ≤ ((parsedRecords parseK parseV lines).map Prod.fst).count k) :
    (recs.map Prod.fst).count k = 1 ∧
    lookupA recs k = lookupA (parsedRecords parseK parseV lines).reverse k ∧
    recs.map Prod.fst =
      dedupFirst ((parsedRecords parseK parseV lines).map Prod.fst) := by
  have hrecs : recs = applyRecords (parsedRecords parseK parseV lines) [] :=
    fromLinesGo_ok parseK parseV lines 1 [] recs hok
  subst hrecs
  refine ⟨?_, ?_, ?_⟩
  · rw [map_fst_applyRecords]
    have hmem : k ∈ (parsedRecords parseK parseV lines).map Prod.fst := by
      by_contra hnm
      rw [List.count_eq_zero_of_not_mem hnm] at hdup
      omega
    have hnodup := nodup_dedup_foldl
      ((parsedRecords parseK parseV lines).map Prod.fst) [] List.nodup_nil
    have hmem' : k ∈ ((parsedRecords parseK parseV lines).map
        Prod.fst).foldl (fun a k' => if k' ∈ a then a else a ++ [k']) [] := by
      rw [mem_dedup_foldl]
      exact Or.inr hmem
    simpa using List.count_eq_one_of_mem hnodup hmem'
  · rw [lookupA_applyRecords]
    cases lookupA (parsedRecords parseK parseV lines).reverse k <;> rfl
  · rw [map_fst_applyRecords]
    rfl

/-- Instantiation of the C9 theorem: lines `a 1`, `b 2`, `a 3` — key `a`
appears twice, the document holds it once with the last value `3`, and
the keys iterate in first-appearance order `a`, `b`. -/
theorem cm_duplicate_keys_witness :
    ((applyRecords (parsedRecords okParser okParser
        ["a 1".toList, "b 2".toList, "a 3".toList]) []).map Prod.fst).count
        "a".toList = 1 ∧
    lookupA (applyRecords (parsedRecords okParser okParser
        ["a 1".toList, "b 2".toList, "a 3".toList]) []) "a".toList =
      lookupA (parsedRecords okParser okParser
        ["a 1".toList, "b 2".toList, "a 3".toList]).reverse "a".toList ∧
    (applyRecords (parsedRecords okParser okParser
        ["a 1".toList, "b 2".toList, "a 3".toList]) []).map Prod.fst =
      dedupFirst ((parsedRecords okParser okParser
        ["a 1".toList, "b 2".toList, "a 3".toList]).map Prod.fst) := by
  have h := cm_duplicate_keys okParser okParser
    ["a 1".toList, "b 2".toList, "a 3".toList]
    (applyRecords (parsedRecords okParser okParser
      ["a 1".toList, "b 2".toList, "a 3".toList]) [])
    "a".toList (by rfl) (by decide)
  exact h

end Capslock
